import Mathlib

/-!
Verification of the xx-bloom crate (Bloom filter and counting Bloom filter).

The Rust sources are shallowly embedded: `u64`/`u32` arithmetic becomes `Nat`
with explicit `% 2 ^ 64` where the source uses wrapping operations, fallible
paths (Rust panics: remainder by zero, out-of-range `BitVec::get`, the
zero-counter assertion in `remove`) become `Option`, with `none` marking a
panic.  Hash configurations are abstracted as functions from keys to
fingerprints, which is exactly the capability `BloomBuildHasher` provides.
-/

/-- `BloomFingerprint` from lib.rs: the two 64-bit lanes of a key's digest. -/
structure BloomFingerprint where
  h1 : Nat
  h2 : Nat
deriving DecidableEq

/-- The raw 64-bit value the `HashIter` iterator (hashing.rs) produces at
position `i`: `h1` at 0, `h2` at 1, and `(h1 + i) * h2` with wrapping
(mod `2 ^ 64`) arithmetic from position 2 on. -/
def HashIter.value (fp : BloomFingerprint) (i : Nat) : Nat :=
  if i = 0 then fp.h1
  else if i = 1 then fp.h2
  else (((fp.h1 + i) % 2 ^ 64) * fp.h2) % 2 ^ 64

/-- The full output of a `HashIter` with the given fingerprint and `count`:
the iterator steps `i` from 0 to `count - 1` and stops. -/
def HashIter.seq (fp : BloomFingerprint) (count : Nat) : List Nat :=
  (List.range count).map (HashIter.value fp)

/-- A hash configuration: the capability `BloomBuildHasher` supplies, namely
a deterministic map from keys to 128-bit fingerprints (`HashIter::from`
builds the hasher, feeds the key and calls `finish_128`). -/
structure HashCfg (α : Type) where
  fingerprint : α → BloomFingerprint

/-- `BloomFilter` from bloom.rs: a bit vector plus the hash count.  The
hash configuration is passed separately as a `HashCfg` where needed. -/
structure BloomFilter where
  bits : List Bool
  num_hashes : Nat
deriving DecidableEq

/-- `BloomFilter::with_size`: `num_bits` zeroed bits, `num_hashes` hashes. -/
def BloomFilter.with_size (num_bits num_hashes : Nat) : BloomFilter :=
  ⟨List.replicate num_bits false, num_hashes⟩

/-- The loop of `BloomFilter::insert_hash_iter`: for each hash value the
index is `h % bits.len()` (remainder by zero panics, modelled as `none`),
the previous bit is read (`None` from `get` panics) and the bit is set;
`contained` stays true only while every previously read bit was set. -/
def BloomFilter.insert_loop (bits : List Bool) (contained : Bool) :
    List Nat → Option (List Bool × Bool)
  | [] => some (bits, contained)
  | h :: hs =>
    if bits.length = 0 then none
    else
      match bits[h % bits.length]? with
      | some b =>
        BloomFilter.insert_loop (bits.set (h % bits.length) true) (contained && b) hs
      | none => none

/-- `BloomFilter::insert_hash_iter`: runs the loop with `contained = true`
and returns `!contained`. -/
def BloomFilter.insert_hash_iter (f : BloomFilter) (hs : List Nat) :
    Option (BloomFilter × Bool) :=
  (BloomFilter.insert_loop f.bits true hs).map fun r => (⟨r.1, f.num_hashes⟩, !r.2)

/-- The loop of `BloomFilter::contains_hash_iter`: returns false as soon as
a bit at `h % bits.len()` is unset, true when all are set. -/
def BloomFilter.contains_loop (bits : List Bool) : List Nat → Option Bool
  | [] => some true
  | h :: hs =>
    if bits.length = 0 then none
    else
      match bits[h % bits.length]? with
      | some b => if b then BloomFilter.contains_loop bits hs else some false
      | none => none

/-- `BloomFilter::contains_hash_iter`. -/
def BloomFilter.contains_hash_iter (f : BloomFilter) (hs : List Nat) : Option Bool :=
  BloomFilter.contains_loop f.bits hs

/-- `ASMS::insert` for `BloomFilter` at fingerprint level: the key is hashed
to a fingerprint and the derived index sequence is inserted. -/
def BloomFilter.insertFp (f : BloomFilter) (fp : BloomFingerprint) :
    Option (BloomFilter × Bool) :=
  f.insert_hash_iter (HashIter.seq fp f.num_hashes)

/-- `ASMS::contains` for `BloomFilter` at fingerprint level. -/
def BloomFilter.containsFp (f : BloomFilter) (fp : BloomFingerprint) : Option Bool :=
  f.contains_hash_iter (HashIter.seq fp f.num_hashes)

/-- `ASMS::clear` for `BloomFilter`: `BitVec::clear` resets every bit to
false and keeps the length. -/
def BloomFilter.clear (f : BloomFilter) : BloomFilter :=
  ⟨List.replicate f.bits.length false, f.num_hashes⟩

/-- Modelled from the spec: the `bit_vec` crate backing the bit store is an
external collaborator, absent from src.  Per spec §4.3/§6 and the doc
comments on `Intersectable`/`Unionable` in bloom.rs, the bitwise combinator
panics when the two bit-store lengths differ, otherwise applies the
pointwise boolean operation into self and reports whether self changed. -/
def bit_vec.process (a b : List Bool) (op : Bool → Bool → Bool) :
    Option (List Bool × Bool) :=
  if a.length = b.length then
    some (List.zipWith op a b, decide (List.zipWith op a b ≠ a))
  else none

/-- Modelled from the spec: `BitVec::and` (see `bit_vec.process`). -/
def bit_vec.and (a b : List Bool) : Option (List Bool × Bool) :=
  bit_vec.process a b (fun x y => x && y)

/-- Modelled from the spec: `BitVec::or` (see `bit_vec.process`). -/
def bit_vec.or (a b : List Bool) : Option (List Bool × Bool) :=
  bit_vec.process a b (fun x y => x || y)

/-- `Intersectable::intersect` for `BloomFilter`: `self.bits.and(&other.bits)`. -/
def BloomFilter.intersect (f other : BloomFilter) : Option (BloomFilter × Bool) :=
  (bit_vec.and f.bits other.bits).map fun r => (⟨r.1, f.num_hashes⟩, r.2)

/-- `Unionable::union` for `BloomFilter`: `self.bits.or(&other.bits)`. -/
def BloomFilter.union (f other : BloomFilter) : Option (BloomFilter × Bool) :=
  (bit_vec.or f.bits other.bits).map fun r => (⟨r.1, f.num_hashes⟩, r.2)

/-- Modelled from the spec: lib.rs declares `pub mod valuevec` and counting.rs
uses `ValueVec`, but valuevec.rs is absent from src.  Spec §4.5
(PackedCounterStore): `num_entries` counters of `bits_per_entry` bits each
with `get`/`set`/`clear` and `max_value() = 2 ^ bits_per_entry - 1`.  The
word packing is abstracted to a list of counter values; the packing contract
(every stored value fits in `bits_per_entry` bits) is the proved invariant
`CountingBloomFilter.CounterInv` below. -/
structure ValueVec where
  bits_per_entry : Nat
  entries : List Nat
deriving DecidableEq

/-- Modelled from the spec: `ValueVec::new` — all counters start at zero. -/
def ValueVec.new (bits_per_entry num_entries : Nat) : ValueVec :=
  ⟨bits_per_entry, List.replicate num_entries 0⟩

/-- Modelled from the spec: `ValueVec::get`. -/
def ValueVec.get (v : ValueVec) (i : Nat) : Nat :=
  v.entries.getD i 0

/-- Modelled from the spec: `ValueVec::set`. -/
def ValueVec.set (v : ValueVec) (i x : Nat) : ValueVec :=
  ⟨v.bits_per_entry, v.entries.set i x⟩

/-- Modelled from the spec: `ValueVec::max_value` is `2 ^ bits_per_entry - 1`. -/
def ValueVec.max_value (v : ValueVec) : Nat :=
  2 ^ v.bits_per_entry - 1

/-- Modelled from the spec: `ValueVec::clear` zeroes every counter. -/
def ValueVec.clear (v : ValueVec) : ValueVec :=
  ⟨v.bits_per_entry, List.replicate v.entries.length 0⟩

/-- `CountingBloomFilter` from counting.rs. -/
structure CountingBloomFilter where
  counters : ValueVec
  num_entries : Nat
  num_hashes : Nat
deriving DecidableEq

/-- `CountingBloomFilter::with_size`. -/
def CountingBloomFilter.with_size (num_entries bits_per_entry num_hashes : Nat) :
    CountingBloomFilter :=
  ⟨ValueVec.new bits_per_entry num_entries, num_entries, num_hashes⟩

/-- `CountingBloomFilter::contains_hash_iter`: false as soon as a counter at
`h % num_entries` is zero (remainder by zero panics, modelled as `none`). -/
def CountingBloomFilter.contains_hash_iter (c : CountingBloomFilter) :
    List Nat → Option Bool
  | [] => some true
  | h :: hs =>
    if c.num_entries = 0 then none
    else
      if c.counters.get (h % c.num_entries) = 0 then some false
      else c.contains_hash_iter hs

/-- The loop of `CountingBloomFilter::insert_hash_iter`: tracks the minimum
counter value observed before incrementing and applies a saturating
increment (no-op once the counter has reached `max_value`). -/
def CountingBloomFilter.insert_loop (c : CountingBloomFilter) (minv : Nat) :
    List Nat → Option (CountingBloomFilter × Nat)
  | [] => some (c, minv)
  | h :: hs =>
    if c.num_entries = 0 then none
    else
      let idx := h % c.num_entries
      let cur := c.counters.get idx
      let c2 := if cur < c.counters.max_value then
          { c with counters := c.counters.set idx (cur + 1) } else c
      CountingBloomFilter.insert_loop c2 (if cur < minv then cur else minv) hs

/-- `CountingBloomFilter::insert_hash_iter`: the loop starts the minimum at
`u32::MAX` and the function returns `min > 0`. -/
def CountingBloomFilter.insert_hash_iter (c : CountingBloomFilter) (hs : List Nat) :
    Option (CountingBloomFilter × Bool) :=
  (CountingBloomFilter.insert_loop c (2 ^ 32 - 1) hs).map fun r =>
    (r.1, decide (0 < r.2))

/-- The loop of `CountingBloomFilter::insert_get_count_hash_iter` — the same
mutation as `insert_loop`, written out separately as in the source. -/
def CountingBloomFilter.insert_get_count_loop (c : CountingBloomFilter) (minv : Nat) :
    List Nat → Option (CountingBloomFilter × Nat)
  | [] => some (c, minv)
  | h :: hs =>
    if c.num_entries = 0 then none
    else
      let idx := h % c.num_entries
      let cur := c.counters.get idx
      let c2 := if cur < c.counters.max_value then
          { c with counters := c.counters.set idx (cur + 1) } else c
      CountingBloomFilter.insert_get_count_loop c2 (if cur < minv then cur else minv) hs

/-- `CountingBloomFilter::insert_get_count_hash_iter`: returns the
pre-increment minimum. -/
def CountingBloomFilter.insert_get_count_hash_iter (c : CountingBloomFilter)
    (hs : List Nat) : Option (CountingBloomFilter × Nat) :=
  CountingBloomFilter.insert_get_count_loop c (2 ^ 32 - 1) hs

/-- The loop of `CountingBloomFilter::estimate_count_hash_iter`: the minimum
of the addressed counters, starting from `u32::MAX`, without mutation. -/
def CountingBloomFilter.estimate_count_loop (c : CountingBloomFilter) (minv : Nat) :
    List Nat → Option Nat
  | [] => some minv
  | h :: hs =>
    if c.num_entries = 0 then none
    else
      let cur := c.counters.get (h % c.num_entries)
      CountingBloomFilter.estimate_count_loop c (if cur < minv then cur else minv) hs

/-- `CountingBloomFilter::estimate_count_hash_iter`. -/
def CountingBloomFilter.estimate_count_hash_iter (c : CountingBloomFilter)
    (hs : List Nat) : Option Nat :=
  CountingBloomFilter.estimate_count_loop c (2 ^ 32 - 1) hs

/-- The decrement loop of `CountingBloomFilter::remove_hash_iter`: reads each
addressed counter, tracks the pre-decrement minimum, decrements a nonzero
counter and panics (`none`) on a zero one. -/
def CountingBloomFilter.remove_loop (c : CountingBloomFilter) (minv : Nat) :
    List Nat → Option (CountingBloomFilter × Nat)
  | [] => some (c, minv)
  | h :: hs =>
    if c.num_entries = 0 then none
    else
      let idx := h % c.num_entries
      let cur := c.counters.get idx
      if 0 < cur then
        CountingBloomFilter.remove_loop
          { c with counters := c.counters.set idx (cur - 1) }
          (if cur < minv then cur else minv) hs
      else none

/-- `CountingBloomFilter::remove_hash_iter`: returns 0 without mutation when
`contains_hash_iter` is false, otherwise runs the decrement loop. -/
def CountingBloomFilter.remove_hash_iter (c : CountingBloomFilter) (hs : List Nat) :
    Option (CountingBloomFilter × Nat) :=
  match c.contains_hash_iter hs with
  | none => none
  | some false => some (c, 0)
  | some true => CountingBloomFilter.remove_loop c (2 ^ 32 - 1) hs

/-- `ASMS::clear` for `CountingBloomFilter`. -/
def CountingBloomFilter.clear (c : CountingBloomFilter) : CountingBloomFilter :=
  { c with counters := c.counters.clear }

/-- `ASMS::contains` for `CountingBloomFilter`: hash the key with the
filter's configuration, then test the derived sequence. -/
def CountingBloomFilter.contains {α : Type} (cfg : HashCfg α)
    (c : CountingBloomFilter) (item : α) : Option Bool :=
  c.contains_hash_iter (HashIter.seq (cfg.fingerprint item) c.num_hashes)

/-- `ASMS::contains_fingerprint` for `CountingBloomFilter`: drive the index
sequence directly from a caller-supplied fingerprint. -/
def CountingBloomFilter.contains_fingerprint (c : CountingBloomFilter)
    (fp : BloomFingerprint) : Option Bool :=
  c.contains_hash_iter (HashIter.seq fp c.num_hashes)

/-- `ASMS::insert` for `CountingBloomFilter` at key level. -/
def CountingBloomFilter.insert {α : Type} (cfg : HashCfg α)
    (c : CountingBloomFilter) (item : α) : Option (CountingBloomFilter × Bool) :=
  c.insert_hash_iter (HashIter.seq (cfg.fingerprint item) c.num_hashes)

/-- `CountingBloomFilter::insert_get_count` at key level. -/
def CountingBloomFilter.insert_get_count {α : Type} (cfg : HashCfg α)
    (c : CountingBloomFilter) (item : α) : Option (CountingBloomFilter × Nat) :=
  c.insert_get_count_hash_iter (HashIter.seq (cfg.fingerprint item) c.num_hashes)

/-- `CountingBloomFilter::remove` at key level. -/
def CountingBloomFilter.remove {α : Type} (cfg : HashCfg α)
    (c : CountingBloomFilter) (item : α) : Option (CountingBloomFilter × Nat) :=
  c.remove_hash_iter (HashIter.seq (cfg.fingerprint item) c.num_hashes)

/-- `CountingBloomFilter::estimate_count` at key level. -/
def CountingBloomFilter.estimate_count {α : Type} (cfg : HashCfg α)
    (c : CountingBloomFilter) (item : α) : Option Nat :=
  c.estimate_count_hash_iter (HashIter.seq (cfg.fingerprint item) c.num_hashes)

/-- One saturating increment at a counter index: the operation spec §4.4
describes `insert` as applying at each derived index. -/
def CountingBloomFilter.incrAt (c : CountingBloomFilter) (idx : Nat) :
    CountingBloomFilter :=
  let cur := c.counters.get idx
  if cur < c.counters.max_value then
    { c with counters := c.counters.set idx (cur + 1) }
  else c

/-- The packing invariant of the counter store: every counter value is at
most `2 ^ bits_per_entry - 1`. -/
def CountingBloomFilter.CounterInv (c : CountingBloomFilter) : Prop :=
  ∀ x ∈ c.counters.entries, x ≤ c.counters.max_value

/-- Operations of a `BloomFilter` history, for the no-false-negative claim:
inserting a key (given by its fingerprint) and clearing. -/
inductive BloomOp where
  | ins (fp : BloomFingerprint)
  | clear
deriving DecidableEq

/-- Apply one operation to a `BloomFilter`. -/
def BloomFilter.applyOp (f : BloomFilter) : BloomOp → Option BloomFilter
  | BloomOp.ins fp => (f.insertFp fp).map Prod.fst
  | BloomOp.clear => some f.clear

/-- Apply a sequence of operations to a `BloomFilter`. -/
def BloomFilter.applyOps (f : BloomFilter) : List BloomOp → Option BloomFilter
  | [] => some f
  | op :: ops => (f.applyOp op).bind fun f2 => BloomFilter.applyOps f2 ops

/-- All bits at the indices derived from `x` are set in `f`. -/
def BloomFilter.allSet (f : BloomFilter) (x : BloomFingerprint) : Prop :=
  ∀ h ∈ HashIter.seq x f.num_hashes, f.bits.getD (h % f.bits.length) false = true

/-- C4: for every fingerprint, count `k` and positive modulus, the derived
index sequence yields exactly `k` raw 64-bit values — `h1` at position 0,
`h2` at position 1, `(h1 + i) * h2` wrapping mod `2 ^ 64` from position 2 —
and each value reduced modulo the modulus lies below the modulus. -/
theorem HashIter.seq_spec (fp : BloomFingerprint) (k m : Nat)
    (hm : 0 < m) (h1 : fp.h1 < 2 ^ 64) (h2 : fp.h2 < 2 ^ 64) :
    (HashIter.seq fp k).length = k
    ∧ (∀ i, i < k → (HashIter.seq fp k).getD i 0 =
        if i = 0 then fp.h1
        else if i = 1 then fp.h2
        else (((fp.h1 + i) % 2 ^ 64) * fp.h2) % 2 ^ 64)
    ∧ (∀ h ∈ HashIter.seq fp k, h < 2 ^ 64)
    ∧ (∀ h ∈ HashIter.seq fp k, h % m < m) := by
  refine ⟨by simp [HashIter.seq], ?_, ?_, ?_⟩
  · intro i hi
    simp only [HashIter.seq, List.getD_eq_getElem?_getD, List.getElem?_map,
      List.getElem?_range hi, Option.map_some', Option.getD_some]
    rfl
  · intro h hh
    simp only [HashIter.seq, List.mem_map, List.mem_range] at hh
    obtain ⟨i, _, rfl⟩ := hh
    unfold HashIter.value
    split
    · exact h1
    · split
      · exact h2
      · exact Nat.mod_lt _ (by norm_num)
  · intro h _
    exact Nat.mod_lt _ hm

/-- Witness for C4 at a concrete input. -/
theorem HashIter.seq_spec_witness :
    (HashIter.seq ⟨5, 7⟩ 3).length = 3 :=
  (HashIter.seq_spec ⟨5, 7⟩ 3 10 (by decide)
    (by norm_num) (by norm_num)).1

/-- C9: `contains(key)` and `contains_fingerprint(fp)` agree whenever `fp`
is the fingerprint the filter's hash configuration produces for the key;
the two variants differ only in how the fingerprint is obtained. -/
theorem CountingBloomFilter.contains_fingerprint_equiv {α : Type}
    (cfg : HashCfg α) (c : CountingBloomFilter) (item : α)
    (fp : BloomFingerprint) (hfp : fp = cfg.fingerprint item) :
    CountingBloomFilter.contains cfg c item = c.contains_fingerprint fp := by
  subst hfp
  rfl

/-- Witness for C9 at a concrete input. -/
theorem CountingBloomFilter.contains_fingerprint_equiv_witness :
    CountingBloomFilter.contains ⟨fun n => ⟨n, n + 1⟩⟩
      (CountingBloomFilter.with_size 4 4 2) 3
    = (CountingBloomFilter.with_size 4 4 2).contains_fingerprint ⟨3, 4⟩ :=
  CountingBloomFilter.contains_fingerprint_equiv ⟨fun n => ⟨n, n + 1⟩⟩
    (CountingBloomFilter.with_size 4 4 2) 3 ⟨3, 4⟩ rfl

/-- C7: when `contains(key)` is false, `remove(key)` returns 0 and leaves
the filter unchanged. -/
theorem CountingBloomFilter.remove_absent_noop {α : Type} (cfg : HashCfg α)
    (c : CountingBloomFilter) (item : α)
    (hc : CountingBloomFilter.contains cfg c item = some false) :
    CountingBloomFilter.remove cfg c item = some (c, 0) := by
  unfold CountingBloomFilter.remove CountingBloomFilter.remove_hash_iter
  unfold CountingBloomFilter.contains at hc
  rw [hc]

/-- Witness for C7 at a concrete input: a fresh filter contains nothing. -/
theorem CountingBloomFilter.remove_absent_noop_witness :
    CountingBloomFilter.remove ⟨fun _ => ⟨0, 0⟩⟩
      (CountingBloomFilter.with_size 2 4 2) 0
    = some (CountingBloomFilter.with_size 2 4 2, 0) :=
  CountingBloomFilter.remove_absent_noop ⟨fun _ => ⟨0, 0⟩⟩
    (CountingBloomFilter.with_size 2 4 2) 0 (by decide)

/-- C10: `with_size` accepts zero bits without error, and on the resulting
zero-bit filter any insert or contains with at least one hash panics — the
index reduction is a remainder by the bit-store length, which is zero. -/
theorem BloomFilter.zero_bits_panic (k : Nat) (fp : BloomFingerprint)
    (hk : 0 < k) :
    (BloomFilter.with_size 0 k).bits.length = 0
    ∧ (BloomFilter.with_size 0 k).insertFp fp = none
    ∧ (BloomFilter.with_size 0 k).containsFp fp = none := by
  have hseq : ∃ h t, HashIter.seq fp k = h :: t := by
    cases hE : HashIter.seq fp k with
    | nil =>
      have : (HashIter.seq fp k).length = k := by simp [HashIter.seq]
      rw [hE] at this
      simp only [List.length_nil] at this
      omega
    | cons h t => exact ⟨h, t, rfl⟩
  obtain ⟨h, t, hseq⟩ := hseq
  refine ⟨by simp [BloomFilter.with_size], ?_, ?_⟩
  · simp [BloomFilter.insertFp, BloomFilter.insert_hash_iter, BloomFilter.with_size,
      hseq, BloomFilter.insert_loop]
  · simp [BloomFilter.containsFp, BloomFilter.contains_hash_iter, BloomFilter.with_size,
      hseq, BloomFilter.contains_loop]

/-- Witness for C10 at a concrete input. -/
theorem BloomFilter.zero_bits_panic_witness :
    (BloomFilter.with_size 0 1).bits.length = 0
    ∧ (BloomFilter.with_size 0 1).insertFp ⟨3, 4⟩ = none
    ∧ (BloomFilter.with_size 0 1).containsFp ⟨3, 4⟩ = none :=
  BloomFilter.zero_bits_panic 1 ⟨3, 4⟩ (by decide)

/-- Pointwise reading of `zipWith` on equal-length boolean lists. -/
theorem getD_zipWith_eq (op : Bool → Bool → Bool) :
    ∀ (a b : List Bool) (i : Nat), i < a.length → a.length = b.length →
      (List.zipWith op a b).getD i false = op (a.getD i false) (b.getD i false) := by
  intro a
  induction a with
  | nil =>
    intro b i hi _
    simp at hi
  | cons x xs ih =>
    intro b i hi hlen
    cases b with
    | nil => simp at hlen
    | cons y ys =>
      cases i with
      | zero => simp
      | succ j =>
        simp only [List.zipWith_cons_cons, List.getD_cons_succ]
        exact ih ys j (by simpa using hi) (by simpa using hlen)

/-- C6: `union` and `intersect` panic exactly when the two bit-store lengths
differ; with equal lengths they compute the pointwise OR/AND into self and
return true exactly when self's bits changed. -/
theorem BloomFilter.union_intersect_spec (f g : BloomFilter) :
    (f.union g = none ↔ f.bits.length ≠ g.bits.length)
    ∧ (f.intersect g = none ↔ f.bits.length ≠ g.bits.length)
    ∧ (∀ f2 chg, f.union g = some (f2, chg) →
        f2.bits.length = f.bits.length
        ∧ (∀ i, i < f.bits.length →
            f2.bits.getD i false = (f.bits.getD i false || g.bits.getD i false))
        ∧ (chg = true ↔ f2.bits ≠ f.bits))
    ∧ (∀ f2 chg, f.intersect g = some (f2, chg) →
        f2.bits.length = f.bits.length
        ∧ (∀ i, i < f.bits.length →
            f2.bits.getD i false = (f.bits.getD i false && g.bits.getD i false))
        ∧ (chg = true ↔ f2.bits ≠ f.bits)) := by
  by_cases hlen : f.bits.length = g.bits.length
  · refine ⟨by simp [BloomFilter.union, bit_vec.or, bit_vec.process, hlen],
      by simp [BloomFilter.intersect, bit_vec.and, bit_vec.process, hlen], ?_, ?_⟩
    · intro f2 chg heq
      simp only [BloomFilter.union, bit_vec.or, bit_vec.process, if_pos hlen,
        Option.map_some', Option.some.injEq, Prod.mk.injEq] at heq
      obtain ⟨hf2, hchg⟩ := heq
      subst hf2
      subst hchg
      refine ⟨by simp [List.length_zipWith, hlen], ?_, by simp⟩
      intro i hi
      exact getD_zipWith_eq _ f.bits g.bits i hi hlen
    · intro f2 chg heq
      simp only [BloomFilter.intersect, bit_vec.and, bit_vec.process, if_pos hlen,
        Option.map_some', Option.some.injEq, Prod.mk.injEq] at heq
      obtain ⟨hf2, hchg⟩ := heq
      subst hf2
      subst hchg
      refine ⟨by simp [List.length_zipWith, hlen], ?_, by simp⟩
      intro i hi
      exact getD_zipWith_eq _ f.bits g.bits i hi hlen
  · refine ⟨by simp [BloomFilter.union, bit_vec.or, bit_vec.process, hlen],
      by simp [BloomFilter.intersect, bit_vec.and, bit_vec.process, hlen], ?_, ?_⟩
    · intro f2 chg heq
      simp [BloomFilter.union, bit_vec.or, bit_vec.process, hlen] at heq
    · intro f2 chg heq
      simp [BloomFilter.intersect, bit_vec.and, bit_vec.process, hlen] at heq

/-- Witness for C6 at a concrete input: the changed flag of a union that
flips a bit. -/
theorem BloomFilter.union_intersect_spec_witness :
    (BloomFilter.mk [true] 2).bits.length = (BloomFilter.mk [false] 2).bits.length
    ∧ (true = true ↔ (BloomFilter.mk [true] 2).bits ≠ (BloomFilter.mk [false] 2).bits) :=
  have h := (BloomFilter.union_intersect_spec ⟨[false], 2⟩ ⟨[true], 2⟩).2.2.1
    ⟨[true], 2⟩ true (by decide)
  ⟨h.1, h.2.2⟩

/-- The source's `if cur < min` update is the natural-number minimum. -/
theorem if_lt_eq_min (x y : Nat) : (if x < y then x else y) = min x y := by
  split
  · omega
  · omega

/-- `insert_hash_iter` and `insert_get_count_hash_iter` run textually
identical loops; the loops agree. -/
theorem CountingBloomFilter.insert_loop_eq (hs : List Nat) :
    ∀ (c : CountingBloomFilter) (minv : Nat),
      CountingBloomFilter.insert_loop c minv hs
        = CountingBloomFilter.insert_get_count_loop c minv hs := by
  induction hs with
  | nil =>
    intro c minv
    rfl
  | cons h hs ih =>
    intro c minv
    simp only [CountingBloomFilter.insert_loop, CountingBloomFilter.insert_get_count_loop]
    split
    · rfl
    · exact ih _ _

/-- Threading a smaller starting minimum through the insert-get-count loop
is the same as taking the minimum afterwards. -/
theorem CountingBloomFilter.igc_loop_min (hs : List Nat) :
    ∀ (c : CountingBloomFilter) (a m : Nat),
      CountingBloomFilter.insert_get_count_loop c (min a m) hs
        = (CountingBloomFilter.insert_get_count_loop c m hs).map
            fun r => (r.1, min a r.2) := by
  induction hs with
  | nil =>
    intro c a m
    rfl
  | cons h hs ih =>
    intro c a m
    simp only [CountingBloomFilter.insert_get_count_loop]
    split
    · rfl
    · rw [if_lt_eq_min, if_lt_eq_min]
      have hmm : min (c.counters.get (h % c.num_entries)) (min a m)
          = min a (min (c.counters.get (h % c.num_entries)) m) := by omega
      rw [hmm, ih]

/-- C1 (amended): `insert` performs exactly the mutation of
`insert_get_count` and returns true iff the pre-increment minimum was
nonzero (the key was already considered present); the mutation applies one
saturating increment (`incrAt`) at each derived index in turn, and the
returned minimum combines each counter value observed before its increment. -/
theorem CountingBloomFilter.insert_spec :
    (∀ (c : CountingBloomFilter) (hs : List Nat),
      c.insert_hash_iter hs
        = (c.insert_get_count_hash_iter hs).map fun r => (r.1, decide (0 < r.2)))
    ∧ (∀ (c : CountingBloomFilter) (h : Nat) (hs : List Nat), 0 < c.num_entries →
      c.insert_get_count_hash_iter (h :: hs)
        = (CountingBloomFilter.insert_get_count_hash_iter
              (c.incrAt (h % c.num_entries)) hs).map
            fun r => (r.1, min (c.counters.get (h % c.num_entries)) r.2))
    ∧ (∀ c : CountingBloomFilter,
        c.insert_get_count_hash_iter [] = some (c, 2 ^ 32 - 1)) := by
  refine ⟨?_, ?_, fun c => rfl⟩
  · intro c hs
    unfold CountingBloomFilter.insert_hash_iter CountingBloomFilter.insert_get_count_hash_iter
    rw [CountingBloomFilter.insert_loop_eq]
  · intro c h hs hn
    unfold CountingBloomFilter.insert_get_count_hash_iter
    conv =>
      lhs
      rw [CountingBloomFilter.insert_get_count_loop]
    rw [if_neg (by omega)]
    simp only [CountingBloomFilter.incrAt]
    rw [if_lt_eq_min]
    have : min (c.counters.get (h % c.num_entries)) (2 ^ 32 - 1)
        = min (c.counters.get (h % c.num_entries)) (2 ^ 32 - 1) := rfl
    rw [CountingBloomFilter.igc_loop_min]

/-- Witness for C1's amended theorem at a concrete input. -/
theorem CountingBloomFilter.insert_spec_witness :
    (CountingBloomFilter.with_size 1 4 1).insert_get_count_hash_iter [0]
      = (CountingBloomFilter.insert_get_count_hash_iter
            ((CountingBloomFilter.with_size 1 4 1).incrAt (0 % 1)) []).map
          fun r => (r.1, min ((CountingBloomFilter.with_size 1 4 1).counters.get (0 % 1)) r.2) :=
  CountingBloomFilter.insert_spec.2.1 (CountingBloomFilter.with_size 1 4 1) 0 []
    (by decide)

/-- Counterexample to C1 as stated: on a fresh filter the pre-increment
minimum is 0 (`estimate_count` returns 0) yet `insert` returns `false`, not
`true` — the source returns `min > 0` (key already present), the opposite
convention of the claim. -/
theorem CountingBloomFilter.insert_novelty_counterexample :
    CountingBloomFilter.estimate_count ⟨fun _ => ⟨0, 0⟩⟩
      (CountingBloomFilter.with_size 2 4 1) (0 : Nat) = some 0
    ∧ CountingBloomFilter.insert ⟨fun _ => ⟨0, 0⟩⟩
        (CountingBloomFilter.with_size 2 4 1) (0 : Nat)
      = some (⟨⟨4, [1, 0]⟩, 2, 1⟩, false) := by
  constructor
  · decide
  · decide

/-- `getD` after `set` at a different index is unchanged. -/
theorem getD_set_ne {α : Type} (d a : α) :
    ∀ (l : List α) (idx i : Nat), idx ≠ i → (l.set idx a).getD i d = l.getD i d := by
  intro l
  induction l with
  | nil =>
    intro idx i _
    rfl
  | cons x xs ih =>
    intro idx i hne
    cases idx with
    | zero =>
      cases i with
      | zero => exact absurd rfl hne
      | succ j => simp
    | succ k =>
      cases i with
      | zero => simp
      | succ j =>
        simp only [List.set_cons_succ, List.getD_cons_succ]
        exact ih k j (by omega)

/-- `getD` after an in-range `set` at the same index gives the new value. -/
theorem getD_set_self {α : Type} (d a : α) :
    ∀ (l : List α) (idx : Nat), idx < l.length → (l.set idx a).getD idx d = a := by
  intro l
  induction l with
  | nil =>
    intro idx h
    simp at h
  | cons x xs ih =>
    intro idx h
    cases idx with
    | zero => rfl
    | succ k =>
      simp only [List.set_cons_succ, List.getD_cons_succ]
      exact ih k (by simpa using h)

/-- Out-of-range `getD` returns the default. -/
theorem getD_oob {α : Type} (d : α) :
    ∀ (l : List α) (i : Nat), l.length ≤ i → l.getD i d = d := by
  intro l
  induction l with
  | nil =>
    intro i _
    rfl
  | cons x xs ih =>
    intro i h
    cases i with
    | zero => simp at h
    | succ j =>
      simp only [List.getD_cons_succ]
      exact ih j (by simpa using h)

/-- A `getD` different from the default implies the index is in range. -/
theorem lt_length_of_getD_ne {α : Type} (d : α) (l : List α) (i : Nat)
    (h : l.getD i d ≠ d) : i < l.length := by
  by_contra hge
  exact h (getD_oob d l i (by omega))

/-- Under the packing invariant every `get` is at most `max_value`. -/
theorem CountingBloomFilter.get_le_max (c : CountingBloomFilter)
    (hinv : c.CounterInv) (i : Nat) :
    c.counters.get i ≤ c.counters.max_value := by
  unfold ValueVec.get
  by_cases hi : i < c.counters.entries.length
  · rw [List.getD_eq_getElem?_getD, List.getElem?_eq_getElem hi]
    exact hinv _ (List.getElem_mem hi)
  · rw [getD_oob _ _ _ (by omega)]
    exact Nat.zero_le _

/-- Setting a counter to a value within range preserves the invariant. -/
theorem CountingBloomFilter.inv_set (c : CountingBloomFilter) (hinv : c.CounterInv)
    (idx v : Nat) (hv : v ≤ c.counters.max_value) :
    CountingBloomFilter.CounterInv { c with counters := c.counters.set idx v } := by
  intro x hx
  simp only [ValueVec.set, ValueVec.max_value] at hx ⊢
  rcases List.mem_or_eq_of_mem_set hx with h | h
  · exact hinv x h
  · subst h
    exact hv

/-- The insert-get-count loop preserves the packing invariant. -/
theorem CountingBloomFilter.igc_loop_inv (hs : List Nat) :
    ∀ (c : CountingBloomFilter) (minv : Nat) (c2 : CountingBloomFilter) (m : Nat),
      c.CounterInv →
      CountingBloomFilter.insert_get_count_loop c minv hs = some (c2, m) →
      c2.CounterInv := by
  induction hs with
  | nil =>
    intro c minv c2 m hinv heq
    simp only [CountingBloomFilter.insert_get_count_loop, Option.some.injEq,
      Prod.mk.injEq] at heq
    obtain ⟨rfl, rfl⟩ := heq
    exact hinv
  | cons h hs ih =>
    intro c minv c2 m hinv heq
    simp only [CountingBloomFilter.insert_get_count_loop] at heq
    split at heq
    · exact absurd heq (by simp)
    · split at heq
      · exact ih _ _ _ _ (CountingBloomFilter.inv_set c hinv _ _ (by
          have := CountingBloomFilter.get_le_max c hinv (h % c.num_entries)
          omega)) heq
      · exact ih _ _ _ _ hinv heq

/-- The remove loop preserves the packing invariant. -/
theorem CountingBloomFilter.remove_loop_inv (hs : List Nat) :
    ∀ (c : CountingBloomFilter) (minv : Nat) (c2 : CountingBloomFilter) (m : Nat),
      c.CounterInv →
      CountingBloomFilter.remove_loop c minv hs = some (c2, m) →
      c2.CounterInv := by
  induction hs with
  | nil =>
    intro c minv c2 m hinv heq
    simp only [CountingBloomFilter.remove_loop, Option.some.injEq, Prod.mk.injEq] at heq
    obtain ⟨rfl, rfl⟩ := heq
    exact hinv
  | cons h hs ih =>
    intro c minv c2 m hinv heq
    simp only [CountingBloomFilter.remove_loop] at heq
    split at heq
    · exact absurd heq (by simp)
    · split at heq
      · exact ih _ _ _ _ (CountingBloomFilter.inv_set c hinv _ _ (by
          have := CountingBloomFilter.get_le_max c hinv (h % c.num_entries)
          omega)) heq
      · exact absurd heq (by simp)

/-- The estimate loop's result never exceeds its starting minimum. -/
theorem CountingBloomFilter.estimate_loop_le (hs : List Nat) :
    ∀ (c : CountingBloomFilter) (minv r : Nat),
      CountingBloomFilter.estimate_count_loop c minv hs = some r → r ≤ minv := by
  induction hs with
  | nil =>
    intro c minv r heq
    simp only [CountingBloomFilter.estimate_count_loop, Option.some.injEq] at heq
    omega
  | cons h hs ih =>
    intro c minv r heq
    simp only [CountingBloomFilter.estimate_count_loop] at heq
    split at heq
    · exact absurd heq (by simp)
    · have := ih _ _ _ heq
      split at this <;> omega

/-- C8 (amended): every counting-filter operation preserves the invariant
that each counter is at most `2 ^ bits_per_entry - 1` (counters are
naturals, so the lower bound 0 is inherent), and with at least one probe
(`num_hashes ≥ 1`, so the derived sequence is nonempty) `estimate_count`
never exceeds the maximum representable value.  The slice and fingerprint
variants drive the same `_hash_iter` code, covered by quantifying over the
hash-value sequence. -/
theorem CountingBloomFilter.counter_invariant_spec :
    (∀ (c : CountingBloomFilter) (hs : List Nat) (c2 : CountingBloomFilter) (b : Bool),
      c.CounterInv → c.insert_hash_iter hs = some (c2, b) → c2.CounterInv)
    ∧ (∀ (c : CountingBloomFilter) (hs : List Nat) (c2 : CountingBloomFilter) (m : Nat),
      c.CounterInv → c.insert_get_count_hash_iter hs = some (c2, m) → c2.CounterInv)
    ∧ (∀ (c : CountingBloomFilter) (hs : List Nat) (c2 : CountingBloomFilter) (m : Nat),
      c.CounterInv → c.remove_hash_iter hs = some (c2, m) → c2.CounterInv)
    ∧ (∀ c : CountingBloomFilter, c.CounterInv → c.clear.CounterInv)
    ∧ (∀ (c : CountingBloomFilter) (hs : List Nat) (r : Nat),
      c.CounterInv → hs ≠ [] → c.estimate_count_hash_iter hs = some r →
      r ≤ c.counters.max_value) := by
  refine ⟨?_, ?_, ?_, ?_, ?_⟩
  · intro c hs c2 b hinv heq
    unfold CountingBloomFilter.insert_hash_iter at heq
    rw [CountingBloomFilter.insert_loop_eq] at heq
    rw [Option.map_eq_some'] at heq
    obtain ⟨⟨c2x, mx⟩, h1, h2⟩ := heq
    have : c2x = c2 := by
      simpa using congrArg Prod.fst h2
    subst this
    exact CountingBloomFilter.igc_loop_inv _ _ _ _ _ hinv h1
  · intro c hs c2 m hinv heq
    exact CountingBloomFilter.igc_loop_inv _ _ _ _ _ hinv heq
  · intro c hs c2 m hinv heq
    unfold CountingBloomFilter.remove_hash_iter at heq
    split at heq
    · exact absurd heq (by simp)
    · simp only [Option.some.injEq, Prod.mk.injEq] at heq
      obtain ⟨rfl, rfl⟩ := heq
      exact hinv
    · exact CountingBloomFilter.remove_loop_inv _ _ _ _ _ hinv heq
  · intro c hinv x hx
    simp only [CountingBloomFilter.clear, ValueVec.clear, ValueVec.max_value] at hx ⊢
    rw [List.eq_of_mem_replicate hx]
    exact Nat.zero_le _
  · intro c hs r hinv hne heq
    cases hs with
    | nil => exact absurd rfl hne
    | cons h t =>
      unfold CountingBloomFilter.estimate_count_hash_iter at heq
      simp only [CountingBloomFilter.estimate_count_loop] at heq
      split at heq
      · exact absurd heq (by simp)
      · have h1 := CountingBloomFilter.estimate_loop_le t _ _ _ heq
        have h2 := CountingBloomFilter.get_le_max c hinv (h % c.num_entries)
        rw [if_lt_eq_min] at h1
        omega

/-- Witness for C8 at a concrete input: an estimate on a filter holding
counter value 3 with 4 bits per entry stays at most 15. -/
theorem CountingBloomFilter.counter_invariant_spec_witness :
    (3 : Nat) ≤ (⟨⟨4, [3]⟩, 1, 1⟩ : CountingBloomFilter).counters.max_value :=
  CountingBloomFilter.counter_invariant_spec.2.2.2.2 ⟨⟨4, [3]⟩, 1, 1⟩ [0] 3
    (by unfold CountingBloomFilter.CounterInv; decide) (by decide) (by decide)

/-- `ValueVec.get` after `set` at a different index. -/
theorem ValueVec.get_set_ne (v : ValueVec) (idx i x : Nat) (h : idx ≠ i) :
    (v.set idx x).get i = v.get i :=
  getD_set_ne 0 x v.entries idx i h

/-- `ValueVec.get` after an in-range `set` at the same index. -/
theorem ValueVec.get_set_self (v : ValueVec) (idx x : Nat)
    (h : idx < v.entries.length) :
    (v.set idx x).get idx = x :=
  getD_set_self 0 x v.entries idx h

/-- `contains_hash_iter` is true exactly when every addressed counter is
nonzero (for a positive entry count). -/
theorem CountingBloomFilter.contains_iff (c : CountingBloomFilter)
    (hn : 0 < c.num_entries) (hs : List Nat) :
    c.contains_hash_iter hs = some true ↔
      ∀ h ∈ hs, c.counters.get (h % c.num_entries) ≠ 0 := by
  induction hs with
  | nil => simp [CountingBloomFilter.contains_hash_iter]
  | cons h t ih =>
    simp only [CountingBloomFilter.contains_hash_iter,
      if_neg (show ¬c.num_entries = 0 by omega)]
    by_cases hz : c.counters.get (h % c.num_entries) = 0
    · simp only [if_pos hz]
      constructor
      · intro hfalse
        exact absurd hfalse (by simp)
      · intro hall
        exact absurd hz (hall h (by simp))
    · simp only [if_neg hz]
      rw [ih]
      constructor
      · intro hall h2 hmem
        rcases List.mem_cons.mp hmem with rfl | hmem2
        · exact hz
        · exact hall h2 hmem2
      · intro hall h2 hmem
        exact hall h2 (List.mem_cons_of_mem _ hmem)

/-- The estimate loop only depends on the counter values at the addressed
indices. -/
theorem CountingBloomFilter.estimate_loop_congr (hs : List Nat) :
    ∀ (c c2 : CountingBloomFilter) (minv : Nat),
      c.num_entries = c2.num_entries →
      (∀ h ∈ hs, c.counters.get (h % c.num_entries)
        = c2.counters.get (h % c2.num_entries)) →
      CountingBloomFilter.estimate_count_loop c minv hs
        = CountingBloomFilter.estimate_count_loop c2 minv hs := by
  induction hs with
  | nil =>
    intro c c2 minv _ _
    rfl
  | cons h t ih =>
    intro c c2 minv hne hval
    have hv := hval h (by simp)
    rw [← hne] at hv
    simp only [CountingBloomFilter.estimate_count_loop]
    rw [← hne, ← hv]
    split
    · rfl
    · exact ih c c2 _ hne fun h2 hm => hval h2 (List.mem_cons_of_mem _ hm)

/-- When the addressed indices are pairwise distinct and every addressed
counter is nonzero, the remove loop succeeds, decrements each addressed
counter once, leaves the rest alone, and returns the same minimum the
estimate loop computes. -/
theorem CountingBloomFilter.remove_loop_spec (hs : List Nat) :
    ∀ (c : CountingBloomFilter) (minv : Nat),
      0 < c.num_entries →
      (hs.map (fun h => h % c.num_entries)).Nodup →
      (∀ h ∈ hs, c.counters.get (h % c.num_entries) ≠ 0) →
      ∃ c2 m,
        CountingBloomFilter.remove_loop c minv hs = some (c2, m)
        ∧ CountingBloomFilter.estimate_count_loop c minv hs = some m
        ∧ (∀ h ∈ hs, c2.counters.get (h % c.num_entries)
            = c.counters.get (h % c.num_entries) - 1)
        ∧ (∀ i, i ∉ hs.map (fun h => h % c.num_entries) →
            c2.counters.get i = c.counters.get i)
        ∧ c2.num_entries = c.num_entries ∧ c2.num_hashes = c.num_hashes := by
  induction hs with
  | nil =>
    intro c minv hn _ _
    exact ⟨c, minv, rfl, rfl, by simp, fun i _ => rfl, rfl, rfl⟩
  | cons h t ih =>
    intro c minv hn hnd hnz
    have hz : c.counters.get (h % c.num_entries) ≠ 0 := hnz h (by simp)
    have hidx : h % c.num_entries < c.counters.entries.length :=
      lt_length_of_getD_ne 0 _ _ hz
    simp only [List.map_cons, List.nodup_cons] at hnd
    obtain ⟨hnotin, hndt⟩ := hnd
    set c' : CountingBloomFilter :=
      { c with counters := c.counters.set (h % c.num_entries) (c.counters.get (h % c.num_entries) - 1) } with hc'
    have hget' : ∀ h2 ∈ t, c'.counters.get (h2 % c.num_entries)
        = c.counters.get (h2 % c.num_entries) := by
      intro h2 hm
      refine ValueVec.get_set_ne _ _ _ _ ?_
      intro hcontra
      apply hnotin
      rw [hcontra]
      exact List.mem_map_of_mem _ hm
    have hnz' : ∀ h2 ∈ t, c'.counters.get (h2 % c'.num_entries) ≠ 0 := by
      intro h2 hm
      have : c'.num_entries = c.num_entries := rfl
      rw [this, hget' h2 hm]
      exact hnz h2 (List.mem_cons_of_mem _ hm)
    have hndt' : (t.map (fun h2 => h2 % c'.num_entries)).Nodup := hndt
    obtain ⟨c2, m, hrm, hest, hdec, hunch, hne2, hnh2⟩ :=
      ih c' (if c.counters.get (h % c.num_entries) < minv
          then c.counters.get (h % c.num_entries) else minv) hn hndt' hnz'
    refine ⟨c2, m, ?_, ?_, ?_, ?_, hne2, hnh2⟩
    · simp only [CountingBloomFilter.remove_loop,
        if_neg (show ¬c.num_entries = 0 by omega)]
      rw [if_pos (show 0 < c.counters.get (h % c.num_entries) by omega)]
      exact hrm
    · simp only [CountingBloomFilter.estimate_count_loop,
        if_neg (show ¬c.num_entries = 0 by omega)]
      rw [CountingBloomFilter.estimate_loop_congr t c c' _ rfl
        (fun h2 hm => (hget' h2 hm).symm)]
      exact hest
    · intro h0 hm0
      rcases List.mem_cons.mp hm0 with rfl | hm2
      · have h1 : c2.counters.get (h0 % c.num_entries)
            = c'.counters.get (h0 % c.num_entries) := hunch _ hnotin
        rw [h1]
        exact ValueVec.get_set_self c.counters _ _ hidx
      · have h2 := hdec h0 hm2
        rw [hget' h0 hm2] at h2
        exact h2
    · intro i hi
      simp only [List.map_cons, List.mem_cons, not_or] at hi
      obtain ⟨hi1, hi2⟩ := hi
      rw [hunch i hi2]
      exact ValueVec.get_set_ne _ _ _ _ fun hcontra => hi1 hcontra.symm

/-- C3 (amended): when `contains(key)` is true and the k derived indices
are pairwise distinct, `remove(key)` never reaches the zero-counter
assertion — every counter it decrements is nonzero at the moment of
decrement (the call succeeds), each addressed counter is decremented by 1,
other counters are untouched, and the pre-decrement minimum across the k
counters (the value `estimate_count` reports) is returned. -/
theorem CountingBloomFilter.remove_present_spec {α : Type} (cfg : HashCfg α)
    (c : CountingBloomFilter) (item : α)
    (hnd : ((HashIter.seq (cfg.fingerprint item) c.num_hashes).map
        (fun h => h % c.num_entries)).Nodup)
    (hc : CountingBloomFilter.contains cfg c item = some true) :
    ∃ c2 m,
      CountingBloomFilter.remove cfg c item = some (c2, m)
      ∧ CountingBloomFilter.estimate_count cfg c item = some m
      ∧ (∀ h ∈ HashIter.seq (cfg.fingerprint item) c.num_hashes,
          c2.counters.get (h % c.num_entries)
            = c.counters.get (h % c.num_entries) - 1)
      ∧ (∀ i, i ∉ (HashIter.seq (cfg.fingerprint item) c.num_hashes).map
            (fun h => h % c.num_entries) →
          c2.counters.get i = c.counters.get i)
      ∧ c2.num_entries = c.num_entries ∧ c2.num_hashes = c.num_hashes := by
  unfold CountingBloomFilter.contains at hc
  by_cases hn : 0 < c.num_entries
  · have hnz := (CountingBloomFilter.contains_iff c hn _).mp hc
    obtain ⟨c2, m, hrm, hest, hdec, hunch, h1, h2⟩ :=
      CountingBloomFilter.remove_loop_spec _ c (2 ^ 32 - 1) hn hnd hnz
    refine ⟨c2, m, ?_, ?_, hdec, hunch, h1, h2⟩
    · unfold CountingBloomFilter.remove CountingBloomFilter.remove_hash_iter
      rw [hc]
      exact hrm
    · unfold CountingBloomFilter.estimate_count
        CountingBloomFilter.estimate_count_hash_iter
      exact hest
  · have hn0 : c.num_entries = 0 := by omega
    cases hseq : HashIter.seq (cfg.fingerprint item) c.num_hashes with
    | cons h t =>
      rw [hseq] at hc
      simp [CountingBloomFilter.contains_hash_iter, hn0] at hc
    | nil =>
      refine ⟨c, 2 ^ 32 - 1, ?_, ?_, ?_, fun i _ => rfl, rfl, rfl⟩
      · unfold CountingBloomFilter.remove CountingBloomFilter.remove_hash_iter
        rw [hc, hseq]
        rfl
      · unfold CountingBloomFilter.estimate_count
          CountingBloomFilter.estimate_count_hash_iter
        rw [hseq]
        rfl
      · intro h hmem
        simp at hmem

/-- Witness for C3's amended theorem at a concrete input. -/
theorem CountingBloomFilter.remove_present_spec_witness :
    ∃ c2 m,
      CountingBloomFilter.remove ⟨fun _ => ⟨0, 1⟩⟩
          (⟨⟨4, [1, 2]⟩, 2, 2⟩ : CountingBloomFilter) (0 : Nat) = some (c2, m)
      ∧ CountingBloomFilter.estimate_count ⟨fun _ => ⟨0, 1⟩⟩
          (⟨⟨4, [1, 2]⟩, 2, 2⟩ : CountingBloomFilter) (0 : Nat) = some m
      ∧ (∀ h ∈ HashIter.seq ⟨0, 1⟩ 2,
          c2.counters.get (h % 2)
            = (⟨⟨4, [1, 2]⟩, 2, 2⟩ : CountingBloomFilter).counters.get (h % 2) - 1)
      ∧ (∀ i, i ∉ (HashIter.seq ⟨0, 1⟩ 2).map (fun h => h % 2) →
          c2.counters.get i
            = (⟨⟨4, [1, 2]⟩, 2, 2⟩ : CountingBloomFilter).counters.get i)
      ∧ c2.num_entries = 2 ∧ c2.num_hashes = 2 :=
  CountingBloomFilter.remove_present_spec ⟨fun _ => ⟨0, 1⟩⟩ ⟨⟨4, [1, 2]⟩, 2, 2⟩ 0
    (by decide) (by decide)

/-- Counterexample to C3 as stated: a reachable state (one entry, one bit
per entry, two hashes; both derived indices collide on entry 0, which
saturates at 1 after one insert) in which `contains` is true yet `remove`
hits the zero-counter panic on the second decrement. -/
theorem CountingBloomFilter.remove_zero_counter_panic_counterexample :
    CountingBloomFilter.insert ⟨fun _ => ⟨0, 0⟩⟩
        (CountingBloomFilter.with_size 1 1 2) (0 : Nat)
      = some (⟨⟨1, [1]⟩, 1, 2⟩, false)
    ∧ CountingBloomFilter.contains ⟨fun _ => ⟨0, 0⟩⟩
        (⟨⟨1, [1]⟩, 1, 2⟩ : CountingBloomFilter) (0 : Nat) = some true
    ∧ CountingBloomFilter.remove ⟨fun _ => ⟨0, 0⟩⟩
        (⟨⟨1, [1]⟩, 1, 2⟩ : CountingBloomFilter) (0 : Nat) = none := by
  refine ⟨by decide, by decide, by decide⟩

/-- Setting a bit never unsets another: `getD` stays true under `set _ true`. -/
theorem getD_set_true (bits : List Bool) (idx i : Nat)
    (h : bits.getD i false = true) : (bits.set idx true).getD i false = true := by
  by_cases hii : idx = i
  · subst hii
    by_cases hlt : idx < bits.length
    · rw [getD_set_self _ _ _ _ hlt]
    · rw [getD_oob false bits idx (by omega)] at h
      exact absurd h (by decide)
  · rw [getD_set_ne false true bits idx i hii]
    exact h

/-- The bloom insert loop preserves the bit-store length. -/
theorem BloomFilter.insert_loop_length (hs : List Nat) :
    ∀ (bits : List Bool) (cont : Bool) (bits2 : List Bool) (c2 : Bool),
      BloomFilter.insert_loop bits cont hs = some (bits2, c2) →
      bits2.length = bits.length := by
  induction hs with
  | nil =>
    intro bits cont bits2 c2 heq
    simp only [BloomFilter.insert_loop, Option.some.injEq, Prod.mk.injEq] at heq
    obtain ⟨rfl, rfl⟩ := heq
    rfl
  | cons h t ih =>
    intro bits cont bits2 c2 heq
    simp only [BloomFilter.insert_loop] at heq
    split at heq
    · exact absurd heq (by simp)
    · split at heq
      · have := ih _ _ _ _ heq
        simpa using this
      · exact absurd heq (by simp)

/-- The bloom insert loop only sets bits, so a set bit stays set. -/
theorem BloomFilter.insert_loop_mono (hs : List Nat) :
    ∀ (bits : List Bool) (cont : Bool) (bits2 : List Bool) (c2 : Bool) (i : Nat),
      BloomFilter.insert_loop bits cont hs = some (bits2, c2) →
      bits.getD i false = true → bits2.getD i false = true := by
  induction hs with
  | nil =>
    intro bits cont bits2 c2 i heq hbit
    simp only [BloomFilter.insert_loop, Option.some.injEq, Prod.mk.injEq] at heq
    obtain ⟨rfl, rfl⟩ := heq
    exact hbit
  | cons h t ih =>
    intro bits cont bits2 c2 i heq hbit
    simp only [BloomFilter.insert_loop] at heq
    split at heq
    · exact absurd heq (by simp)
    · split at heq
      · exact ih _ _ _ _ _ heq (getD_set_true bits _ i hbit)
      · exact absurd heq (by simp)

/-- After a successful bloom insert loop each addressed bit is set. -/
theorem BloomFilter.insert_loop_sets (hs : List Nat) :
    ∀ (bits : List Bool) (cont : Bool) (bits2 : List Bool) (c2 : Bool),
      0 < bits.length →
      BloomFilter.insert_loop bits cont hs = some (bits2, c2) →
      ∀ h ∈ hs, bits2.getD (h % bits.length) false = true := by
  induction hs with
  | nil =>
    intro bits cont bits2 c2 _ _ h hmem
    simp at hmem
  | cons h0 t ih =>
    intro bits cont bits2 c2 hlen heq h hmem
    have hidx : h0 % bits.length < bits.length := Nat.mod_lt _ hlen
    simp only [BloomFilter.insert_loop, if_neg (show ¬bits.length = 0 by omega),
      List.getElem?_eq_getElem hidx] at heq
    rcases List.mem_cons.mp hmem with rfl | hmem2
    · refine BloomFilter.insert_loop_mono t _ _ _ _ _ heq ?_
      exact getD_set_self false true bits _ hidx
    · have hlen2 : (bits.set (h0 % bits.length) true).length = bits.length := by
        simp
      have := ih (bits.set (h0 % bits.length) true) _ _ _
        (by rw [hlen2]; exact hlen) heq h hmem2
      rw [hlen2] at this
      exact this

/-- If every addressed bit is set, the bloom contains loop returns true. -/
theorem BloomFilter.contains_loop_of_all (hs : List Nat) :
    ∀ bits : List Bool, 0 < bits.length →
      (∀ h ∈ hs, bits.getD (h % bits.length) false = true) →
      BloomFilter.contains_loop bits hs = some true := by
  induction hs with
  | nil =>
    intro bits _ _
    rfl
  | cons h t ih =>
    intro bits hlen hall
    have hidx : h % bits.length < bits.length := Nat.mod_lt _ hlen
    have hbit : bits.getD (h % bits.length) false = true := hall h (by simp)
    rw [List.getD_eq_getElem?_getD, List.getElem?_eq_getElem hidx,
      Option.getD_some] at hbit
    simp only [BloomFilter.contains_loop, if_neg (show ¬bits.length = 0 by omega),
      List.getElem?_eq_getElem hidx, hbit, if_true]
    exact ih bits hlen fun h2 hm => hall h2 (List.mem_cons_of_mem _ hm)

/-- Every operation preserves the bit-store length and the hash count. -/
theorem BloomFilter.applyOp_preserves (f f2 : BloomFilter) (op : BloomOp)
    (heq : f.applyOp op = some f2) :
    f2.bits.length = f.bits.length ∧ f2.num_hashes = f.num_hashes := by
  cases op with
  | ins fp =>
    simp only [BloomFilter.applyOp, BloomFilter.insertFp,
      BloomFilter.insert_hash_iter, Option.map_map, Option.map_eq_some'] at heq
    obtain ⟨⟨bits2, c2⟩, h1, h2⟩ := heq
    have hf2 : f2 = ⟨bits2, f.num_hashes⟩ := by simpa using h2.symm
    subst hf2
    exact ⟨BloomFilter.insert_loop_length _ _ _ _ _ h1, rfl⟩
  | clear =>
    simp only [BloomFilter.applyOp, Option.some.injEq] at heq
    subst heq
    simp [BloomFilter.clear]

/-- Inserting the fingerprint `x` leaves all of `x`'s bits set. -/
theorem BloomFilter.insert_allSet (f f1 : BloomFilter) (x : BloomFingerprint)
    (hlen : 0 < f.bits.length)
    (heq : f.applyOp (BloomOp.ins x) = some f1) :
    BloomFilter.allSet f1 x := by
  simp only [BloomFilter.applyOp, BloomFilter.insertFp,
    BloomFilter.insert_hash_iter, Option.map_map, Option.map_eq_some'] at heq
  obtain ⟨⟨bits2, c2⟩, h1, h2⟩ := heq
  have hf1 : f1 = ⟨bits2, f.num_hashes⟩ := by simpa using h2.symm
  subst hf1
  intro h hmem
  have hlenr : bits2.length = f.bits.length := BloomFilter.insert_loop_length _ _ _ _ _ h1
  show bits2.getD (h % bits2.length) false = true
  rw [hlenr]
  exact BloomFilter.insert_loop_sets _ _ _ _ _ hlen h1 h hmem

/-- A non-clear operation keeps all of `x`'s bits set. -/
theorem BloomFilter.applyOp_allSet (f f2 : BloomFilter) (op : BloomOp)
    (x : BloomFingerprint) (hop : op ≠ BloomOp.clear)
    (heq : f.applyOp op = some f2) (hall : BloomFilter.allSet f x) :
    BloomFilter.allSet f2 x := by
  cases op with
  | clear => exact absurd rfl hop
  | ins fp =>
    simp only [BloomFilter.applyOp, BloomFilter.insertFp,
      BloomFilter.insert_hash_iter, Option.map_map, Option.map_eq_some'] at heq
    obtain ⟨⟨bits2, c2⟩, h1, h2⟩ := heq
    have hf2 : f2 = ⟨bits2, f.num_hashes⟩ := by simpa using h2.symm
    subst hf2
    intro h hmem
    have hlenr : bits2.length = f.bits.length :=
      BloomFilter.insert_loop_length _ _ _ _ _ h1
    show bits2.getD (h % bits2.length) false = true
    rw [hlenr]
    exact BloomFilter.insert_loop_mono _ _ _ _ _ _ h1 (hall h hmem)

/-- A clear-free operation sequence keeps all of `x`'s bits set. -/
theorem BloomFilter.applyOps_allSet (post : List BloomOp) :
    ∀ (f f2 : BloomFilter) (x : BloomFingerprint),
      0 < f.bits.length → BloomFilter.allSet f x → BloomOp.clear ∉ post →
      BloomFilter.applyOps f post = some f2 →
      0 < f2.bits.length ∧ BloomFilter.allSet f2 x := by
  induction post with
  | nil =>
    intro f f2 x hlen hall _ heq
    simp only [BloomFilter.applyOps, Option.some.injEq] at heq
    subst heq
    exact ⟨hlen, hall⟩
  | cons op t ih =>
    intro f f2 x hlen hall hnotin heq
    simp only [BloomFilter.applyOps, Option.bind_eq_some] at heq
    obtain ⟨f1, hop, hrest⟩ := heq
    have hne : op ≠ BloomOp.clear := by
      intro hcontra
      subst hcontra
      exact hnotin (List.mem_cons_self _ _)
    have hpres := BloomFilter.applyOp_preserves f f1 op hop
    exact ih f1 f2 x (by omega) (BloomFilter.applyOp_allSet f f1 op x hne hop hall)
      (fun hm => hnotin (List.mem_cons_of_mem _ hm)) hrest

/-- C2: no false negatives — on a filter with at least one bit, any
operation sequence that inserts `x` and never clears afterwards leaves
`contains x` true: insert sets every bit at `x`'s derived indices, later
inserts only set more bits, and contains checks exactly those indices. -/
theorem BloomFilter.no_false_negatives (f f2 : BloomFilter) (x : BloomFingerprint)
    (pre post : List BloomOp)
    (hlen : 0 < f.bits.length)
    (hpost : BloomOp.clear ∉ post)
    (happly : f.applyOps (pre ++ BloomOp.ins x :: post) = some f2) :
    f2.containsFp x = some true := by
  induction pre generalizing f with
  | nil =>
    simp only [List.nil_append, BloomFilter.applyOps, Option.bind_eq_some] at happly
    obtain ⟨f1, hop, hrest⟩ := happly
    have hall : BloomFilter.allSet f1 x := BloomFilter.insert_allSet f f1 x hlen hop
    have hlen1 : 0 < f1.bits.length := by
      have := BloomFilter.applyOp_preserves f f1 _ hop
      omega
    obtain ⟨hlen2, hall2⟩ :=
      BloomFilter.applyOps_allSet post f1 f2 x hlen1 hall hpost hrest
    unfold BloomFilter.containsFp BloomFilter.contains_hash_iter
    exact BloomFilter.contains_loop_of_all _ _ hlen2 hall2
  | cons op t ih =>
    simp only [List.cons_append, BloomFilter.applyOps, Option.bind_eq_some] at happly
    obtain ⟨f1, hop, hrest⟩ := happly
    have hpres := BloomFilter.applyOp_preserves f f1 op hop
    exact ih f1 (by omega) hrest

/-- Witness for C2 at a concrete input. -/
theorem BloomFilter.no_false_negatives_witness :
    (⟨[false, true, true, false, false, false, false, false], 2⟩ : BloomFilter).containsFp
      ⟨1, 2⟩ = some true :=
  BloomFilter.no_false_negatives (BloomFilter.with_size 8 2)
    ⟨[false, true, true, false, false, false, false, false], 2⟩ ⟨1, 2⟩ [] []
    (by decide) (by decide) (by decide)

/-- Counterexample to C8 as stated: on a filter constructed with zero
hashes (which `with_size` accepts), `estimate_count` probes no counter and
returns its loop's initial accumulator `u32::MAX = 4294967295`, which
exceeds the maximum representable counter value 15 at 4 bits per entry. -/
theorem CountingBloomFilter.estimate_exceeds_max_counterexample :
    CountingBloomFilter.estimate_count ⟨fun _ => ⟨0, 0⟩⟩
        (CountingBloomFilter.with_size 1 4 0) (0 : Nat) = some 4294967295
    ∧ (CountingBloomFilter.with_size 1 4 0).counters.max_value = 15 := by
  refine ⟨by decide, by decide⟩
